import Mathlib

/-!
Verification of the strided tensor core of tensor.c (hexdhog/tensor.c).

The C code is shallowly embedded: a `tensor_t` becomes the `Tensor`
structure below, every C function of the core becomes a Lean function of
the same name, process-aborting `assert`s become `Option` failure
(`none`), and machine integers become `Nat`/`Int` (with an explicit
`% 2 ^ 32` where the C code multiplies into a `uint32_t` that could
wrap).  The element type `float` is embedded as `ℤ`: every data value
appearing in the concrete scenarios below is a small integer, and the
only operations the embedded code applies to data are addition and
multiplication, under which IEEE single-precision arithmetic is exact
on these values, so `ℤ` models the C arithmetic faithfully for
everything proved here.

`malloc` returns uninitialized memory; `tensor_alloc` therefore takes an
extra argument `mem`, the junk contents the allocator happened to
return, and performs no initialization of the data buffer, exactly like
the C code.
-/

namespace TensorC

/-- Default C-order strides, as computed by the loops
`stride[ndim-1] = 1; for (i = ndim-2; i >= 0; i--)
stride[i] = stride[i+1] * shape[i+1];` in `tensor_alloc`, `contiguous`
and `reshape`. -/
def cstrides : List ℕ → List ℕ
  | [] => []
  | [_] => [1]
  | _ :: s2 :: ss => ((cstrides (s2 :: ss)).headD 1 * s2) :: cstrides (s2 :: ss)

/-- The element-count loop of `tensor_alloc`:
`t->numel = 0; for (i) t->numel = (t->numel > 0 ? t->numel : 1) * t->shape[i];`. -/
def prodNumel (shape : List ℕ) : ℕ :=
  shape.foldl (fun acc s => (if acc > 0 then acc else 1) * s) 0

/-- The `tensor_t` struct: number of dimensions, shape, stride, element
count and the flat data buffer. -/
structure Tensor where
  ndim : ℕ
  shape : List ℕ
  stride : List ℕ
  numel : ℕ
  data : List ℤ
  deriving Repr, DecidableEq

/-- The representation invariant every tensor produced by the library
maintains: consistent lengths, positive extents, element count equal to
the shape product, and a buffer of exactly that many cells. -/
def Tensor.wf (t : Tensor) : Prop :=
  t.ndim = t.shape.length ∧ t.stride.length = t.shape.length ∧
    t.numel = t.shape.prod ∧ t.data.length = t.numel ∧
    1 ≤ t.ndim ∧ ∀ s ∈ t.shape, 0 < s

instance (t : Tensor) : Decidable t.wf := by
  unfold Tensor.wf; infer_instance

/-- Builds the tensor `tensor_alloc` returns once validation has passed:
shape copied, default C-order strides, element count from the fold, and
the raw allocator contents as data. -/
def mkT (shape : List ℕ) (data : List ℤ) : Tensor :=
  { ndim := shape.length, shape := shape, stride := cstrides shape,
    numel := prodNumel shape, data := data }

/-- Embeds `tensor_alloc` (tensor.c:22-56): asserts `ndim > 0` and every
`shape[i] > 0`, then mallocs a buffer of `numel` floats.  `malloc` does
not initialize the buffer, so the data is whatever `mem` holds (resized
to `numel` cells). -/
def tensor_alloc (shape : List ℤ) (mem : List ℤ) : Option Tensor :=
  if shape.length = 0 then none
  else if shape.all (fun s => 0 < s) then
    let shp := shape.map Int.toNat
    let n := prodNumel shp
    some (mkT shp (mem.take n ++ List.replicate (n - (mem.take n).length) 0))
  else none

/-- Embeds `resolve_dim` (tensor.c:267-272): maps a negative `dim` to
`dim + ndim` and asserts only `d < ndim` — there is no lower-bound
check, so a sufficiently negative `dim` yields a negative result without
any failure. -/
def resolve_dim (ndim dim : ℤ) : Option ℤ :=
  let d := if 0 ≤ dim then dim else dim + ndim
  if d < ndim then some d else none

/-- The scan loop of `resolve_shape` (tensor.c:229-236): walks the shape
recording the index of the (single) negative entry into `dim`
(initially `-1`) and multiplying the non-negative entries into the
`uint32_t` accumulator `mul`; a second negative entry hits
`assert(dim < 0)` and aborts (`none`). -/
def rsLoop : List ℤ → ℤ → ℕ → ℤ → Option (ℤ × ℕ)
  | [], _, mul, dim => some (dim, mul)
  | s :: ss, d, mul, dim =>
    if s < 0 then
      if dim < 0 then rsLoop ss (d + 1) mul d else none
    else rsLoop ss (d + 1) (mul * s.toNat % 2 ^ 32) dim

/-- Embeds `resolve_shape` (tensor.c:223-257): after the scan, the wildcard is
replaced by `numel / mul` — but only under the test `if (dim > 0)`, so a
wildcard sitting at axis 0 is reported (return value 0) yet never
replaced.  Returns the possibly-updated shape together with the returned
dimension. -/
def resolve_shape (numel : ℕ) (shape : List ℤ) : Option (List ℤ × ℤ) :=
  match rsLoop shape 0 1 (-1) with
  | none => none
  | some (dim, mul) =>
    if dim > 0 then some (shape.set dim.toNat ((numel / mul : ℕ) : ℤ), dim)
    else some (shape, dim)

/-- Embeds `transpose` (tensor.c:130-144): resolves both dims and swaps the
corresponding shape and stride entries in place.  A negative resolved
dim would index outside the arrays in C (undefined behavior), embedded
as `none`. -/
def transpose (t : Tensor) (dim1 dim2 : ℤ) : Option Tensor :=
  match resolve_dim t.ndim dim1, resolve_dim t.ndim dim2 with
  | some d1, some d2 =>
    if 0 ≤ d1 ∧ 0 ≤ d2 then
      let i := d1.toNat
      let j := d2.toNat
      if i = j then some t
      else some { t with
        shape := (t.shape.set i (t.shape.getD j 0)).set j (t.shape.getD i 0),
        stride := (t.stride.set i (t.stride.getD j 0)).set j (t.stride.getD i 0) }
    else none
  | _, _ => none

/-- The accumulator loop of `is_contiguous` (tensor.c:152-166), walking
shape and stride from the last axis towards the first (hence over the
reversed lists): `mul = 1; for (i = ndim-1; i >= 0; i--) if
(stride[i] != mul) ret = false; else mul *= shape[i];`. -/
def icLoop : ℕ → List ℕ → List ℕ → Bool
  | _, [], _ => true
  | _, _, [] => true
  | mul, s :: ss, st :: sts => if st ≠ mul then false else icLoop (mul * s) ss sts

/-- Embeds `is_contiguous` (tensor.c:152-166). -/
def is_contiguous (t : Tensor) : Bool :=
  icLoop 1 t.shape.reverse t.stride.reverse

/-- One step of the mixed-radix odometer of `contiguous`
(tensor.c:195-201), operating on the reversed shape, stride and index
lists (the C loop runs `d` from `ndim-1` down to `0`):
`index[d]++; idx += stride[d]; if (index[d] < shape[d]) break;
index[d] = 0; idx -= stride[d] * shape[d];`. -/
def bump : List ℕ → List ℕ → List ℕ → ℕ → List ℕ × ℕ
  | s :: ss, st :: sts, i :: ix, idx =>
    if i + 1 < s then ((i + 1) :: ix, idx + st)
    else
      let r := bump ss sts ix (idx + st - st * s)
      (0 :: r.1, r.2)
  | _, _, ix, idx => (ix, idx)

/-- The gather loop of `contiguous` (tensor.c:191-202): `n` more
elements to copy; reads `t->data[idx]` then advances the odometer. -/
def gatherGo (data : List ℤ) (ss sts : List ℕ) : ℕ → List ℕ → ℕ → List ℤ
  | 0, _, _ => []
  | n + 1, ix, idx =>
    data.getD idx 0 :: (gatherGo data ss sts n (bump ss sts ix idx).1 (bump ss sts ix idx).2)

/-- The freshly gathered buffer of `contiguous`: index vector zeroed,
`idx = 0`, `numel` iterations. -/
def contiguousData (t : Tensor) : List ℤ :=
  gatherGo t.data t.shape.reverse t.stride.reverse t.numel (List.replicate t.ndim 0) 0

/-- Embeds `contiguous` (tensor.c:174-213): no-op when already contiguous,
otherwise replaces the buffer by the odometer gather and recomputes
default C-order strides. -/
def contiguous (t : Tensor) : Tensor :=
  if is_contiguous t then t
  else { t with data := contiguousData t, stride := cstrides t.shape }

/-- The `uint32_t` product `numel` computed by `reshape`
(tensor.c:286-287) over the (resolved) target shape; a negative
`dim_sz_t` entry converts to `uint32_t` mod `2^32`. -/
def reshapeNumel (shape : List ℤ) : ℕ :=
  if shape.length > 0 then
    shape.foldl (fun acc s => acc * (s % 2 ^ 32).toNat % 2 ^ 32) 1
  else 0

/-- Embeds `reshape` (tensor.c:282-311): resolves the target shape, asserts the
element counts match, materializes via `contiguous` when the tensor is
not contiguous, and then always installs default C-order strides for the
new shape.  The returned `Bool` records whether a data copy was
performed (`!is_contiguous t`). -/
def reshape (t : Tensor) (nshape : List ℤ) : Option (Tensor × Bool) :=
  match resolve_shape t.numel nshape with
  | none => none
  | some (shape2, _) =>
    if t.numel = reshapeNumel shape2 then
      let t1 := contiguous t
      let shp := shape2.map Int.toNat
      some ({ ndim := nshape.length, shape := shp, stride := cstrides shp,
              numel := t.numel, data := t1.data },
            !is_contiguous t)
    else none

/-- Embeds `squeeze` (tensor.c:367-380): resolves `dim`; returns the tensor
unchanged when the axis has extent other than 1 or the rank is already
1; otherwise shifts the later shape and stride entries left over the
removed axis and decrements `ndim`. -/
def squeeze (t : Tensor) (dim : ℤ) : Option Tensor :=
  match resolve_dim t.ndim dim with
  | none => none
  | some dv =>
    if 0 ≤ dv then
      let d := dv.toNat
      if t.shape.getD d 0 ≠ 1 ∨ t.ndim = 1 then some t
      else some { ndim := t.ndim - 1, shape := t.shape.eraseIdx d,
                  stride := t.stride.eraseIdx d, numel := t.numel, data := t.data }
    else none

/-- Embeds `unsqueeze` (tensor.c:389-419): resolves `dim` against the new rank
`ndim + 1`, shifts the shape and stride entries at positions `≥ d` one
slot to the right (embedded as an insertion of a placeholder), sets
`shape[d] = 1` and
`stride[d] = d+1 < ndim ? shape[d+1] * stride[d+1] : 1` on the shifted
arrays. -/
def unsqueeze (t : Tensor) (dim : ℤ) : Option Tensor :=
  let ndim := t.ndim + 1
  match resolve_dim ndim dim with
  | none => none
  | some dv =>
    if 0 ≤ dv then
      let d := dv.toNat
      let shape := t.shape.insertIdx d 1
      let stride0 := t.stride.insertIdx d 0
      let sv := if d + 1 < ndim then shape.getD (d + 1) 0 * stride0.getD (d + 1) 0 else 1
      some { ndim := ndim, shape := shape, stride := stride0.set d sv,
             numel := t.numel, data := t.data }
    else none

/-- The right-aligned axis extent used by `broadcast`
(tensor.c:341-342): `s = i < off ? 1 : src[i - off]`. -/
def padAx (l : List ℕ) (ndim i : ℕ) : ℕ :=
  if i < ndim - l.length then 1 else l.getD (i - (ndim - l.length)) 1

/-- The alignment-and-check loop of `broadcast` (tensor.c:340-350):
`n` axes remaining starting at index `i`; returns `none` on the first
aligned pair that is neither equal nor contains a 1. -/
def bcLoop (a b : List ℕ) (ndim : ℕ) : ℕ → ℕ → Option (List ℕ × List ℕ)
  | _, 0 => some ([], [])
  | i, n + 1 =>
    let sa := padAx a ndim i
    let sb := padAx b ndim i
    if sa ≠ sb ∧ sa ≠ 1 ∧ sb ≠ 1 then none
    else
      match bcLoop a b ndim (i + 1) n with
      | none => none
      | some (pa, pb) => some (sa :: pa, sb :: pb)

/-- Embeds `broadcast` (tensor.c:327-358): right-aligns the two shapes to the
common rank `max`, left-padding the shorter one with 1s; fails (the C
function returns 0) when an aligned pair mismatches. -/
def broadcast (a b : List ℕ) : Option (ℕ × List ℕ × List ℕ) :=
  let ndim := Max.max a.length b.length
  match bcLoop a b ndim 0 ndim with
  | none => none
  | some (pa, pb) => some (ndim, pa, pb)

/-- Embeds `sum` (tensor.c:487-528): resolves `dim`, allocates the result with
the summed axis set to extent 1, decomposes the index space into
`outer`/`dimsz`/`inner`, accumulates
`r->data[o*inner + i] += t->data[o*dimsz*inner + j*inner + i]`, and
finally squeezes the summed axis unless `keepdim`.  A negative resolved
dim would index `t->shape` out of bounds in C (undefined behavior),
embedded as `none`. -/
def sum (t : Tensor) (dim : ℤ) (keepdim : Bool) : Option Tensor :=
  match resolve_dim t.ndim dim with
  | none => none
  | some dv =>
    if 0 ≤ dv then
      let d := dv.toNat
      let outer := (t.shape.take d).prod
      let dimsz := t.shape.getD d 0
      let inner := (t.shape.drop (d + 1)).prod
      let rdata := (List.range outer).flatMap (fun o =>
        (List.range inner).map (fun i =>
          ((List.range dimsz).map (fun j =>
            t.data.getD (o * dimsz * inner + j * inner + i) 0)).sum))
      let r := mkT (t.shape.set d 1) rdata
      if keepdim then some r else squeeze r dv
    else none

/-- The element-wise operator selector of `ewop` (tensor.c:550-562). -/
inductive TOp where
  | add
  | mul
  deriving Repr, DecidableEq

/-- Applies a `tensor_op_t` to two elements. -/
def apOp : TOp → ℤ → ℤ → ℤ
  | .add, x, y => x + y
  | .mul, x, y => x * y

/-- Embeds `ewop` (tensor.c:531-566): broadcasts the two shapes (the
`assert(ndim > 0)` abort on failure becomes `none`), allocates the
result with `cshape[i] = max(ashape[i], bshape[i])`, and fills every
linear index with
`op(a->data[cidx % a->numel], b->data[cidx % b->numel])`. -/
def ewop (a b : Tensor) (op : TOp) : Option Tensor :=
  match broadcast a.shape b.shape with
  | none => none
  | some (ndim, pa, pb) =>
    if ndim > 0 then
      let cshape := List.zipWith (fun x y => Max.max x y) pa pb
      let cdata := (List.range (prodNumel cshape)).map (fun cidx =>
        apOp op (a.data.getD (cidx % a.numel) 0) (b.data.getD (cidx % b.numel) 0))
      some (mkT cshape cdata)
    else none

/-- Embeds `add` (tensor.c:568-570). -/
def add (a b : Tensor) : Option Tensor := ewop a b .add

/-- Embeds `mul` (tensor.c:572-574). -/
def mul (a b : Tensor) : Option Tensor := ewop a b .mul

/-! ### Row-major addressing, stated independently of the code

These definitions express the specification's notion of iterating a
multi-index in row-major (last-axis-fastest) order; the odometer loop of
`contiguous` is proved against them. -/

/-- Little-endian mixed-radix digits of `n` for the reversed shape
`ss`: the multi-index whose row-major rank is `n`, innermost axis
first. -/
def digitsLE : List ℕ → ℕ → List ℕ
  | [], _ => []
  | s :: ss, n => n % s :: digitsLE ss (n / s)

/-- Dot product of a stride list with a digit list (both little-endian):
the flat buffer offset `Σ idx[k] * stride[k]`. -/
def dotLE (sts ds : List ℕ) : ℕ :=
  (List.zipWith (fun a b => a * b) sts ds).sum

/-- The row-major rank of a little-endian digit list for the reversed
shape `ss`. -/
def valLE : List ℕ → List ℕ → ℕ
  | s :: ss, d :: ds => d + s * valLE ss ds
  | _, _ => 0

/-- The flat buffer offset `Σ idx[k] * stride[k]` of a big-endian
multi-index, the addressing formula of the data model. -/
def offsetBE (sts ds : List ℕ) : ℕ :=
  dotLE sts ds

/-- All multi-indices of a shape, enumerated in row-major
(last-axis-fastest) order, big-endian. -/
def rmIndices (shape : List ℕ) : List (List ℕ) :=
  (List.range shape.prod).map (fun k => (digitsLE shape.reverse k).reverse)

/-! ### The view-compatible stride resolution described by the spec

Modelled from the spec: section 4.5 step 3 describes a "view-compatible
stride resolution" for `reshape` that the C source does not contain
(its TODO comment at tensor.c:290-292 records that only the copying
fallback is implemented).  The definitions below follow the spec's
words so the code can be compared against them. -/

/-- Modelled from the spec: grows a group of consecutive old axes
(reversed, innermost first), starting from extent `ext` with innermost
stride `inSt`, previous (outermost-so-far) axis `(ps, pst)`, until the
combined extent matches `target`; each newly grouped axis must be
contiguous with the previous one (`stride[i] == shape[i+1] * stride[i+1]`). -/
def specGrow : List (ℕ × ℕ) → ℕ → ℕ → ℕ → ℕ → ℕ → Option (ℕ × List (ℕ × ℕ))
  | old, target, ext, inSt, ps, pst =>
    if ext = target then some (inSt, old)
    else if target < ext then none
    else
      match old with
      | [] => none
      | (s2, st2) :: rest =>
        if st2 = ps * pst then specGrow rest target (ext * s2) inSt s2 st2
        else none

/-- Modelled from the spec: consumes one group of old axes whose
combined extent is `target`, returning the stride of the innermost axis
of the group and the remaining old axes. -/
def specGroup (old : List (ℕ × ℕ)) (target : ℕ) : Option (ℕ × List (ℕ × ℕ)) :=
  match old with
  | [] => none
  | (s, st) :: rest => specGrow rest target s st s st

/-- Modelled from the spec: walks the new shape from the last axis
backward (reversed list), satisfying each new axis by a group of
mutually contiguous old axes; a new axis of extent 1 receives stride 1
without consuming an old axis.  Returns the new strides (reversed). -/
def specResolveLE : List ℕ → List (ℕ × ℕ) → Option (List ℕ)
  | [], _ => some []
  | n :: ns, old =>
    if n = 1 then
      match specResolveLE ns old with
      | none => none
      | some sts => some (1 :: sts)
    else
      match specGroup old n with
      | none => none
      | some (st, rest) =>
        match specResolveLE ns rest with
        | none => none
        | some sts => some (st :: sts)

/-- Modelled from the spec: the view-compatible stride resolution of
section 4.5 step 3 — new strides for `newShape` reinterpreting the
existing `(oldShape, oldStride)` without any data movement, when the
backward grouping walk succeeds. -/
def specViewStrides (oldShape oldStride newShape : List ℕ) : Option (List ℕ) :=
  match specResolveLE newShape.reverse ((oldShape.reverse).zip (oldStride.reverse)) with
  | none => none
  | some sts => some sts.reverse

/-! ### Lemmas about the element-count fold and default strides -/

lemma prodNumel_loop (l : List ℕ) : ∀ acc : ℕ, 0 < acc → (∀ s ∈ l, 0 < s) →
    l.foldl (fun acc s => (if acc > 0 then acc else 1) * s) acc = acc * l.prod := by
  induction l with
  | nil => intro acc _ _; simp
  | cons x xs ih =>
    intro acc hacc hpos
    have hx : 0 < x := hpos x (List.mem_cons_self x xs)
    simp only [List.foldl_cons, if_pos hacc, List.prod_cons]
    rw [ih (acc * x) (Nat.mul_pos hacc hx) (fun s hs => hpos s (List.mem_cons_of_mem x hs)),
      Nat.mul_assoc]

lemma prodNumel_eq_prod (l : List ℕ) (h : l ≠ []) (hpos : ∀ s ∈ l, 0 < s) :
    prodNumel l = l.prod := by
  cases l with
  | nil => simp at h
  | cons x xs =>
    unfold prodNumel
    simp only [List.foldl_cons, if_neg (by omega : ¬ (0:ℕ) > 0), Nat.one_mul]
    rw [prodNumel_loop xs x (hpos x (List.mem_cons_self x xs))
      (fun s hs => hpos s (List.mem_cons_of_mem x hs)), List.prod_cons]

lemma cstrides_headD (s : ℕ) (ss : List ℕ) : (cstrides (s :: ss)).headD 1 = ss.prod := by
  induction ss generalizing s with
  | nil => simp [cstrides]
  | cons s2 ss2 ih =>
    show ((cstrides (s2 :: ss2)).headD 1 * s2 :: cstrides (s2 :: ss2)).headD 1 = _
    rw [List.headD_cons, ih s2, List.prod_cons, Nat.mul_comm]

lemma cstrides_cons (x : ℕ) (xs : List ℕ) : cstrides (x :: xs) = xs.prod :: cstrides xs := by
  cases xs with
  | nil => simp [cstrides]
  | cons s2 ss2 =>
    show (cstrides (s2 :: ss2)).headD 1 * s2 :: cstrides (s2 :: ss2) = _
    rw [cstrides_headD s2 ss2, List.prod_cons, Nat.mul_comm]

lemma cstrides_length (l : List ℕ) : (cstrides l).length = l.length := by
  induction l with
  | nil => rfl
  | cons x xs ih => rw [cstrides_cons, List.length_cons, List.length_cons, ih]

/-! ### The odometer walk of `contiguous` enumerates row-major order -/

lemma dotLE_cons (a b : ℕ) (as_ bs : List ℕ) :
    dotLE (a :: as_) (b :: bs) = a * b + dotLE as_ bs := by
  simp [dotLE]

lemma digitsLE_cons (s : ℕ) (ss : List ℕ) (n : ℕ) :
    digitsLE (s :: ss) n = n % s :: digitsLE ss (n / s) := rfl

lemma digitsLE_zero (ss : List ℕ) : digitsLE ss 0 = List.replicate ss.length 0 := by
  induction ss with
  | nil => rfl
  | cons s ss ih => simp [digitsLE_cons, Nat.zero_mod, Nat.zero_div, ih, List.replicate_succ]

lemma dotLE_replicate_zero (sts : List ℕ) : ∀ k, dotLE sts (List.replicate k 0) = 0 := by
  induction sts with
  | nil => intro k; simp [dotLE]
  | cons st sts ih =>
    intro k
    cases k with
    | zero => simp [dotLE]
    | succ k => simp [List.replicate_succ, dotLE_cons, ih]

lemma bump_digits : ∀ (ss sts : List ℕ), ss.length = sts.length → (∀ s ∈ ss, 0 < s) →
    ∀ i : ℕ, bump ss sts (digitsLE ss i) (dotLE sts (digitsLE ss i)) =
      (digitsLE ss (i + 1), dotLE sts (digitsLE ss (i + 1))) := by
  intro ss
  induction ss with
  | nil =>
    intro sts hlen _ i
    have hsts : sts = [] := List.eq_nil_of_length_eq_zero hlen.symm
    subst hsts
    rfl
  | cons s ss ih =>
    intro sts hlen hpos i
    cases sts with
    | nil => simp at hlen
    | cons st sts =>
      have hs : 0 < s := hpos s (List.mem_cons_self s ss)
      have hlen2 : ss.length = sts.length := by simpa using hlen
      have hpos2 : ∀ x ∈ ss, 0 < x := fun x hx => hpos x (List.mem_cons_of_mem s hx)
      have hmod : i % s < s := Nat.mod_lt i hs
      have hsplit : i = s * (i / s) + i % s := (Nat.div_add_mod i s).symm
      rw [digitsLE_cons, dotLE_cons]
      by_cases hlt : i % s + 1 < s
      · have hmod1 : (i + 1) % s = i % s + 1 := by
          conv_lhs => rw [show i + 1 = s * (i / s) + (i % s + 1) by omega]
          rw [Nat.mul_add_mod, Nat.mod_eq_of_lt hlt]
        have hdiv1 : (i + 1) / s = i / s := by
          conv_lhs => rw [show i + 1 = s * (i / s) + (i % s + 1) by omega]
          rw [Nat.mul_add_div hs, Nat.div_eq_of_lt hlt, Nat.add_zero]
        show bump (s :: ss) (st :: sts) (i % s :: digitsLE ss (i / s)) _ = _
        rw [bump, if_pos hlt, digitsLE_cons, hmod1, hdiv1, dotLE_cons]
        refine congrArg₂ Prod.mk rfl ?_
        ring
      · have hmodtop : i % s = s - 1 := by omega
        have hstep : s * (i / s + 1) = s * (i / s) + s := by ring
        have hmod1 : (i + 1) % s = 0 := by
          rw [show i + 1 = s * (i / s + 1) by omega]
          exact Nat.mul_mod_right s (i / s + 1)
        have hdiv1 : (i + 1) / s = i / s + 1 := by
          rw [show i + 1 = s * (i / s + 1) by omega]
          exact Nat.mul_div_cancel_left _ hs
        show bump (s :: ss) (st :: sts) (i % s :: digitsLE ss (i / s)) _ = _
        rw [bump, if_neg hlt]
        have harg : st * (i % s) + dotLE sts (digitsLE ss (i / s)) + st - st * s =
            dotLE sts (digitsLE ss (i / s)) := by
          have hk : st * (i % s) + st = st * s := by
            rw [hmodtop, ← Nat.mul_succ]
            congr 1
            omega
          omega
        rw [harg, ih sts hlen2 hpos2 (i / s), digitsLE_cons, hmod1, hdiv1, dotLE_cons]
        simp

lemma gatherGo_eq (data : List ℤ) (ss sts : List ℕ) (hlen : ss.length = sts.length)
    (hpos : ∀ s ∈ ss, 0 < s) :
    ∀ n i : ℕ,
      gatherGo data ss sts n (digitsLE ss i) (dotLE sts (digitsLE ss i)) =
        (List.range' i n).map (fun j => data.getD (dotLE sts (digitsLE ss j)) 0) := by
  intro n
  induction n with
  | zero => intro i; rfl
  | succ n ih =>
    intro i
    rw [List.range'_succ, List.map_cons, gatherGo,
      bump_digits ss sts hlen hpos i]
    exact congrArg _ (ih (i + 1))

/-- The buffer `contiguous` produces is exactly the row-major gather of
the strided view: element `k` is read at offset
`Σ idx[j]·stride[j]` of the multi-index of rank `k`. -/
lemma contiguousData_eq (t : Tensor) (hnd : t.ndim = t.shape.length)
    (hst : t.stride.length = t.shape.length) (hpos : ∀ s ∈ t.shape, 0 < s) :
    contiguousData t =
      (List.range t.numel).map
        (fun k => t.data.getD (dotLE t.stride.reverse (digitsLE t.shape.reverse k)) 0) := by
  unfold contiguousData
  have h0 : List.replicate t.ndim 0 = digitsLE t.shape.reverse 0 := by
    rw [digitsLE_zero, List.length_reverse, hnd]
  have h1 : (0 : ℕ) = dotLE t.stride.reverse (digitsLE t.shape.reverse 0) := by
    rw [digitsLE_zero, List.length_reverse, ← hst, ← List.length_reverse t.stride,
      dotLE_replicate_zero]
  have h2 := gatherGo_eq t.data t.shape.reverse t.stride.reverse
    (by rw [List.length_reverse, List.length_reverse, hst])
    (fun s hs => hpos s (List.mem_reverse.mp hs)) t.numel 0
  rw [← h1] at h2
  rw [h0, h2, List.range_eq_range']

/-! ### Rank/unrank lemmas for row-major multi-indices -/

lemma digitsLE_length (ss : List ℕ) (n : ℕ) : (digitsLE ss n).length = ss.length := by
  induction ss generalizing n with
  | nil => rfl
  | cons s ss ih => simp [digitsLE_cons, ih]

lemma digits_valLE : ∀ (ss ds : List ℕ), List.Forall₂ (fun d s => d < s) ds ss →
    digitsLE ss (valLE ss ds) = ds := by
  intro ss
  induction ss with
  | nil =>
    intro ds h
    cases h
    rfl
  | cons s ss ih =>
    intro ds h
    cases h with
    | cons hd htl =>
      rename_i d ds'
      show digitsLE (s :: ss) (d + s * valLE ss ds') = d :: ds'
      rw [digitsLE_cons, Nat.add_mul_mod_self_left, Nat.mod_eq_of_lt hd,
        Nat.add_mul_div_left _ _ (by omega : 0 < s), Nat.div_eq_of_lt hd, Nat.zero_add,
        ih ds' htl]

lemma valLE_lt : ∀ (ss ds : List ℕ), List.Forall₂ (fun d s => d < s) ds ss →
    valLE ss ds < ss.prod := by
  intro ss
  induction ss with
  | nil =>
    intro ds h
    cases h
    simp [valLE]
  | cons s ss ih =>
    intro ds h
    cases h with
    | cons hd htl =>
      rename_i d ds'
      show d + s * valLE ss ds' < (s :: ss).prod
      rw [List.prod_cons]
      calc d + s * valLE ss ds' < s + s * valLE ss ds' := by omega
        _ = s * (valLE ss ds' + 1) := by ring
        _ ≤ s * ss.prod := Nat.mul_le_mul_left s (ih ds' htl)

lemma dotLE_append (as_ bs : List ℕ) (h : as_.length = bs.length) (a b : ℕ) :
    dotLE (as_ ++ [a]) (bs ++ [b]) = dotLE as_ bs + a * b := by
  induction as_ generalizing bs with
  | nil =>
    have : bs = [] := List.eq_nil_of_length_eq_zero h.symm
    subst this
    simp [dotLE]
  | cons x xs ih =>
    cases bs with
    | nil => simp at h
    | cons y ys =>
      have hlen : xs.length = ys.length := by simpa using h
      simp only [List.cons_append, dotLE_cons, ih ys hlen]
      omega

lemma dotLE_reverse (as_ bs : List ℕ) (h : as_.length = bs.length) :
    dotLE as_.reverse bs.reverse = dotLE as_ bs := by
  induction as_ generalizing bs with
  | nil =>
    have : bs = [] := List.eq_nil_of_length_eq_zero h.symm
    subst this
    rfl
  | cons x xs ih =>
    cases bs with
    | nil => simp at h
    | cons y ys =>
      have hlen : xs.length = ys.length := by simpa using h
      rw [List.reverse_cons, List.reverse_cons,
        dotLE_append _ _ (by rw [List.length_reverse, List.length_reverse, hlen]),
        ih ys hlen, dotLE_cons]
      omega

lemma valLE_append (ss ds : List ℕ) (h : ss.length = ds.length) (s d : ℕ) :
    valLE (ss ++ [s]) (ds ++ [d]) = valLE ss ds + d * ss.prod := by
  induction ss generalizing ds with
  | nil =>
    have : ds = [] := List.eq_nil_of_length_eq_zero h.symm
    subst this
    show valLE [s] [d] = valLE [] [] + d * 1
    simp [valLE]
  | cons x xs ih =>
    cases ds with
    | nil => simp at h
    | cons y ys =>
      have hlen : xs.length = ys.length := by simpa using h
      show valLE (x :: (xs ++ [s])) (y :: (ys ++ [d])) = valLE (x :: xs) (y :: ys) + d * (x :: xs).prod
      show y + x * valLE (xs ++ [s]) (ys ++ [d]) = (y + x * valLE xs ys) + d * (x :: xs).prod
      rw [ih ys hlen, List.prod_cons]
      ring

lemma offsetBE_cstrides (l : List ℕ) : ∀ ds : List ℕ, l.length = ds.length →
    offsetBE (cstrides l) ds = valLE l.reverse ds.reverse := by
  induction l with
  | nil =>
    intro ds h
    have : ds = [] := List.eq_nil_of_length_eq_zero h.symm
    subst this
    rfl
  | cons x xs ih =>
    intro ds h
    cases ds with
    | nil => simp at h
    | cons d ds' =>
      have hlen : xs.length = ds'.length := by simpa using h
      show offsetBE (cstrides (x :: xs)) (d :: ds') = _
      rw [cstrides_cons]
      show dotLE (xs.prod :: cstrides xs) (d :: ds') = _
      rw [dotLE_cons, List.reverse_cons, List.reverse_cons,
        valLE_append _ _ (by rw [List.length_reverse, List.length_reverse, hlen]),
        List.prod_reverse]
      have := ih ds' hlen
      unfold offsetBE at this
      rw [this]
      ring

lemma getD_map_range {α : Type} (f : ℕ → α) (n i : ℕ) (d : α) (h : i < n) :
    ((List.range n).map f).getD i d = f i := by
  rw [List.getD_eq_getElem _ d (by simpa using h)]
  simp

/-- C4: for every non-contiguous tensor `t`, `materialize(t)` (the
function `contiguous`) fills a fresh buffer of `element_count` floats in
exactly the order obtained by iterating `t`'s multi-index in row-major
(last-axis-fastest) order, reading each element at offset
`Σ idx[k]·stride[k]` of the old buffer; it never changes
`element_count`, rank, or the value addressed by any multi-index, and
afterwards the tensor has default C-order strides; `materialize` is a
no-op on an already contiguous tensor. -/
theorem C4_materialize_row_major (t : Tensor) (hwf : t.wf) :
    (contiguous t).numel = t.numel ∧
    (contiguous t).ndim = t.ndim ∧
    (contiguous t).shape = t.shape ∧
    (is_contiguous t = true → contiguous t = t) ∧
    (is_contiguous t = false →
      (contiguous t).stride = cstrides t.shape ∧
      (contiguous t).data =
        (rmIndices t.shape).map (fun m => t.data.getD (offsetBE t.stride m) 0)) ∧
    (∀ m : List ℕ, List.Forall₂ (fun d s => d < s) m t.shape →
      (contiguous t).data.getD (offsetBE (contiguous t).stride m) 0 =
        t.data.getD (offsetBE t.stride m) 0) := by
  obtain ⟨hnd, hst, hnum, hdat, hnd1, hpos⟩ := hwf
  by_cases hc : is_contiguous t
  · have he : contiguous t = t := by
      unfold contiguous
      rw [if_pos hc]
    exact ⟨by rw [he], by rw [he], by rw [he], fun _ => he,
      fun hf => absurd hc (by simp [hf]), fun m _ => by rw [he]⟩
  · have he : contiguous t = { t with data := contiguousData t, stride := cstrides t.shape } := by
      unfold contiguous
      rw [if_neg hc]
    have hdata : (contiguous t).data =
        (List.range t.numel).map
          (fun k => t.data.getD (dotLE t.stride.reverse (digitsLE t.shape.reverse k)) 0) := by
      rw [he]
      exact contiguousData_eq t hnd hst hpos
    have hstrideC : (contiguous t).stride = cstrides t.shape := by rw [he]
    refine ⟨by rw [he], by rw [he], by rw [he], fun ht => absurd ht hc, fun _ => ⟨hstrideC, ?_⟩,
      fun m hm => ?_⟩
    · rw [hdata, rmIndices, List.map_map, hnum]
      refine List.map_congr_left (fun k _ => ?_)
      have hrev := dotLE_reverse t.stride (digitsLE t.shape.reverse k).reverse
        (by rw [List.length_reverse, digitsLE_length, List.length_reverse, hst])
      rw [List.reverse_reverse] at hrev
      show t.data.getD (dotLE t.stride.reverse (digitsLE t.shape.reverse k)) 0 =
        t.data.getD (offsetBE t.stride (digitsLE t.shape.reverse k).reverse) 0
      rw [offsetBE, ← hrev]
    · have hlm : m.length = t.shape.length := hm.length_eq
      have hmrev : List.Forall₂ (fun d s => d < s) m.reverse t.shape.reverse :=
        List.forall₂_reverse_iff.mpr hm
      have hoff : offsetBE (cstrides t.shape) m = valLE t.shape.reverse m.reverse :=
        offsetBE_cstrides t.shape m hlm.symm
      have hlt : valLE t.shape.reverse m.reverse < t.numel := by
        rw [hnum, ← List.prod_reverse]
        exact valLE_lt _ _ hmrev
      rw [hstrideC, hoff, hdata, getD_map_range _ _ _ _ hlt, digits_valLE _ _ hmrev]
      have hrev := dotLE_reverse t.stride m (by rw [hst, hlm])
      rw [offsetBE, ← hrev]

/-- The tensor used to instantiate C4: the transpose of a freshly
allocated `[2,3]` tensor holding `1..6`, a non-contiguous view. -/
def c4t : Tensor := ⟨2, [3, 2], [1, 3], 6, [1, 2, 3, 4, 5, 6]⟩

/-- Witness for C4 at the non-contiguous tensor `c4t`. -/
theorem C4_materialize_row_major_witness :
    c4t.wf ∧
    ((contiguous c4t).numel = c4t.numel ∧
      (contiguous c4t).ndim = c4t.ndim ∧
      (contiguous c4t).shape = c4t.shape ∧
      (is_contiguous c4t = true → contiguous c4t = c4t) ∧
      (is_contiguous c4t = false →
        (contiguous c4t).stride = cstrides c4t.shape ∧
        (contiguous c4t).data =
          (rmIndices c4t.shape).map (fun m => c4t.data.getD (offsetBE c4t.stride m) 0)) ∧
      (∀ m : List ℕ, List.Forall₂ (fun d s => d < s) m c4t.shape →
        (contiguous c4t).data.getD (offsetBE (contiguous c4t).stride m) 0 =
          c4t.data.getD (offsetBE c4t.stride m) 0)) :=
  ⟨by decide, C4_materialize_row_major c4t (by decide)⟩

/-! ### Squeeze after unsqueeze -/

lemma eraseIdx_set {α : Type} : ∀ (l : List α) (n : ℕ) (v : α),
    (l.set n v).eraseIdx n = l.eraseIdx n := by
  intro l
  induction l with
  | nil => intro n v; rfl
  | cons x xs ih =>
    intro n v
    cases n with
    | zero => rfl
    | succ n => simp [List.eraseIdx_cons_succ, ih]

lemma resolve_dim_lt (n d dv : ℤ) (h : resolve_dim n d = some dv) : dv < n := by
  simp only [resolve_dim] at h
  by_cases hc : (if 0 ≤ d then d else d + n) < n
  · rw [if_pos hc] at h
    obtain rfl := Option.some.inj h
    exact hc
  · rw [if_neg hc] at h
    cases h

/-- C9: for every tensor `t` and every dimension index `d` valid for
`unsqueeze` (resolving into `[0, rank+1)`),
`squeeze(unsqueeze(t, d), d)` restores `t` exactly — in particular its
original shape and stride sequences; the inserted unit axis carries
stride `shape[d+1]*stride[d+1]` of the shifted arrays (i.e.
`shape[d]*stride[d]` of the original ones), or 1 when inserted at the
end, and is removed again. -/
theorem C9_squeeze_unsqueeze (t : Tensor) (d dv : ℤ) (hwf : t.wf)
    (hres : resolve_dim ((t.ndim + 1 : ℕ) : ℤ) d = some dv) (hdv : 0 ≤ dv) :
    ∃ t1, unsqueeze t d = some t1 ∧
      t1.shape.getD dv.toNat 0 = 1 ∧
      t1.stride.getD dv.toNat 0 =
        (if dv.toNat + 1 < t.ndim + 1 then
          t.shape.getD dv.toNat 0 * t.stride.getD dv.toNat 0 else 1) ∧
      squeeze t1 d = some t := by
  obtain ⟨hnd, hst, hnum, hdat, hnd1, hpos⟩ := hwf
  have hdlt : dv < ((t.ndim + 1 : ℕ) : ℤ) := resolve_dim_lt _ _ _ hres
  have hdn : dv.toNat ≤ t.ndim := by omega
  have hdns : dv.toNat ≤ t.shape.length := by omega
  set dn := dv.toNat with hdnd
  have hlen1 : (t.shape.insertIdx dn 1).length = t.shape.length + 1 :=
    List.length_insertIdx dn t.shape hdns
  have hlen0 : (t.stride.insertIdx dn 0).length = t.shape.length + 1 := by
    rw [List.length_insertIdx dn t.stride (by omega), hst]
  have hget1 : (t.shape.insertIdx dn 1).getD dn 0 = 1 := by
    rw [List.getD_eq_getElem _ 0 (by omega)]
    exact List.getElem_insertIdx_self t.shape 1 dn hdns
  have hunsq : unsqueeze t d = some
      { ndim := t.ndim + 1, shape := t.shape.insertIdx dn 1,
        stride := (t.stride.insertIdx dn 0).set dn
          (if dn + 1 < t.ndim + 1 then
            (t.shape.insertIdx dn 1).getD (dn + 1) 0 *
              (t.stride.insertIdx dn 0).getD (dn + 1) 0
          else 1),
        numel := t.numel, data := t.data } := by
    simp only [unsqueeze]
    rw [hres]
    simp only [if_pos hdv]
  refine ⟨_, hunsq, hget1, ?_, ?_⟩
  · show ((t.stride.insertIdx dn 0).set dn _).getD dn 0 = _
    rw [List.getD_eq_getElem _ 0 (by rw [List.length_set]; omega),
      List.getElem_set_self]
    by_cases hmid : dn + 1 < t.ndim + 1
    · rw [if_pos hmid, if_pos hmid]
      have hdlt2 : dn < t.shape.length := by omega
      congr 1
      · rw [List.getD_eq_getElem (List.insertIdx dn 1 t.shape) 0 (by omega),
          List.getD_eq_getElem t.shape 0 hdlt2]
        have h1 := List.getElem_insertIdx_add_succ t.shape 1 dn 0 (by omega)
        simpa using h1
      · rw [List.getD_eq_getElem (List.insertIdx dn 0 t.stride) 0 (by omega),
          List.getD_eq_getElem t.stride 0 (by omega)]
        have h1 := List.getElem_insertIdx_add_succ t.stride 0 dn 0 (by omega)
        simpa using h1
    · rw [if_neg hmid, if_neg hmid]
  · unfold squeeze
    show (match resolve_dim ((t.ndim + 1 : ℕ) : ℤ) d with
      | none => none
      | some dv => _) = some t
    rw [hres]
    simp only [if_pos hdv]
    have hguard : ¬ ((t.shape.insertIdx dn 1).getD dn 0 ≠ 1 ∨ t.ndim + 1 = 1) := by
      push_neg
      exact ⟨hget1, by omega⟩
    rw [if_neg hguard]
    refine congrArg some ?_
    obtain ⟨nd, shp, st, ne, da⟩ := t
    simp only at hst hdns hlen0 ⊢
    refine Tensor.mk.injEq _ _ _ _ _ _ _ _ _ _ |>.mpr ⟨by omega, ?_, ?_, rfl, rfl⟩
    · exact List.eraseIdx_insertIdx dn shp
    · rw [eraseIdx_set, List.eraseIdx_insertIdx]

/-- The rank-1 tensor used to instantiate C9 and C10. -/
def c9t : Tensor := ⟨1, [3], [1], 3, [1, 2, 3]⟩

/-- Witness for C9 at the rank-1 tensor `c9t` and `d = 0`. -/
theorem C9_squeeze_unsqueeze_witness :
    c9t.wf ∧ resolve_dim ((c9t.ndim + 1 : ℕ) : ℤ) 0 = some 0 ∧ ((0 : ℤ) ≤ 0) ∧
    (∃ t1, unsqueeze c9t 0 = some t1 ∧
      t1.shape.getD (0 : ℤ).toNat 0 = 1 ∧
      t1.stride.getD (0 : ℤ).toNat 0 =
        (if (0 : ℤ).toNat + 1 < c9t.ndim + 1 then
          c9t.shape.getD (0 : ℤ).toNat 0 * c9t.stride.getD (0 : ℤ).toNat 0 else 1) ∧
      squeeze t1 0 = some c9t) :=
  ⟨by decide, by decide, by decide,
    C9_squeeze_unsqueeze c9t 0 0 (by decide) (by decide) (by decide)⟩

/-! ### Sum of a rank-1 tensor keeps rank 1 -/

lemma mkT_ndim (s : List ℕ) (d : List ℤ) : (mkT s d).ndim = s.length := rfl

lemma mkT_shape (s : List ℕ) (d : List ℤ) : (mkT s d).shape = s := rfl

lemma mkT_stride (s : List ℕ) (d : List ℤ) : (mkT s d).stride = cstrides s := rfl

lemma mkT_numel (s : List ℕ) (d : List ℤ) : (mkT s d).numel = prodNumel s := rfl

lemma mkT_data (s : List ℕ) (d : List ℤ) : (mkT s d).data = d := rfl

lemma squeeze_pos (r0 : Tensor) (dv : ℤ) (hdv : 0 ≤ dv) (hlt : dv < (r0.ndim : ℤ)) :
    squeeze r0 dv =
      if r0.shape.getD dv.toNat 0 ≠ 1 ∨ r0.ndim = 1 then some r0
      else some { ndim := r0.ndim - 1, shape := r0.shape.eraseIdx dv.toNat,
                  stride := r0.stride.eraseIdx dv.toNat, numel := r0.numel,
                  data := r0.data } := by
  unfold squeeze
  have hres : resolve_dim (r0.ndim : ℤ) dv = some dv := by
    simp only [resolve_dim, if_pos hdv]
    rw [if_pos hlt]
  rw [hres]
  simp only [if_pos hdv]

/-- C10: for every rank-1 tensor `t` and valid dimension `d`,
`sum(t, d, false)` returns a rank-1 tensor of shape `[1]` rather than a
rank-0 scalar — the `keepdim = false` squeeze is a no-op because
`squeeze` never reduces a rank-1 tensor below rank 1 — and in general
the result rank of `sum` with `keepdim = false` is
`max(input rank - 1, 1)`. -/
theorem C10_sum_rank (t : Tensor) (d dv : ℤ) (hwf : t.wf)
    (hres : resolve_dim t.ndim d = some dv) (hdv : 0 ≤ dv) :
    ∃ r, sum t d false = some r ∧
      r.ndim = Max.max (t.ndim - 1) 1 ∧
      r.shape.length = Max.max (t.ndim - 1) 1 ∧
      (t.ndim = 1 → r.shape = [1]) := by
  obtain ⟨hnd, hst, hnum, hdat, hnd1, hpos⟩ := hwf
  have hdlt : dv < (t.ndim : ℤ) := resolve_dim_lt _ _ _ hres
  set dn := dv.toNat with hdnd
  have hdns : dn < t.shape.length := by omega
  have hsetlen : (t.shape.set dn 1).length = t.shape.length := List.length_set t.shape dn 1
  have hget1 : (t.shape.set dn 1).getD dn 0 = 1 := by
    rw [List.getD_eq_getElem _ 0 (by omega), List.getElem_set_self]
  simp only [sum]
  rw [hres]
  simp only [if_pos hdv, Bool.false_eq_true, if_false]
  rw [squeeze_pos _ dv hdv (by rw [mkT_ndim, hsetlen]; omega),
    mkT_ndim, mkT_shape, mkT_stride, mkT_numel, mkT_data, ← hdnd]
  by_cases h1 : t.ndim = 1
  · rw [if_pos (Or.inr (by omega))]
    obtain ⟨a, ha⟩ := List.length_eq_one.mp (by omega : t.shape.length = 1)
    have hdn0 : dn = 0 := by omega
    refine ⟨_, rfl, ?_, ?_, ?_⟩
    · rw [mkT_ndim, hsetlen]
      omega
    · rw [mkT_shape, hsetlen]
      omega
    · intro _
      rw [mkT_shape, ha, hdn0]
      rfl
  · have hguard : ¬ ((t.shape.set dn 1).getD dn 0 ≠ 1 ∨ (t.shape.set dn 1).length = 1) := by
      push_neg
      exact ⟨hget1, by omega⟩
    rw [if_neg hguard]
    refine ⟨_, rfl, ?_, ?_, fun hc => absurd hc h1⟩
    · show (t.shape.set dn 1).length - 1 = _
      rw [hsetlen]
      omega
    · show ((t.shape.set dn 1).eraseIdx dn).length = _
      rw [List.length_eraseIdx_of_lt (by omega), hsetlen]
      omega

/-- Witness for C10 at the rank-1 tensor `c9t` and `d = 0`. -/
theorem C10_sum_rank_witness :
    c9t.wf ∧ resolve_dim (c9t.ndim : ℤ) 0 = some 0 ∧ ((0 : ℤ) ≤ 0) ∧
    (∃ r, sum c9t 0 false = some r ∧
      r.ndim = Max.max (c9t.ndim - 1) 1 ∧
      r.shape.length = Max.max (c9t.ndim - 1) 1 ∧
      (c9t.ndim = 1 → r.shape = [1])) :=
  ⟨by decide, by decide, by decide,
    C10_sum_rank c9t 0 0 (by decide) (by decide) (by decide)⟩

/-! ### Concrete reduction scenarios -/

/-- C5: on the contiguous `[2,3]` tensor with row-major data
`[1,2,3,4,5,6]`, `sum(t, 0, false)` yields shape `[3]` with data
`[5,7,9]` and `sum(t, 1, true)` yields shape `[2,1]` with data
`[6,15]`; on the contiguous `[2,3,2,4]` tensor filled `1..48`,
`sum(t, 2, false)` yields shape `[2,3,4]` whose first four values are
`[6,8,10,12]`. -/
theorem C5_sum_scenarios :
    ((tensor_alloc [2, 3] [1, 2, 3, 4, 5, 6]).bind (fun t => sum t 0 false)).map
        (fun r => (r.shape, r.data)) = some ([3], [5, 7, 9]) ∧
    ((tensor_alloc [2, 3] [1, 2, 3, 4, 5, 6]).bind (fun t => sum t 1 true)).map
        (fun r => (r.shape, r.data)) = some ([2, 1], [6, 15]) ∧
    ((tensor_alloc [2, 3, 2, 4] ((List.range 48).map (fun i => (i + 1 : ℤ)))).bind
        (fun t => sum t 2 false)).map (fun r => (r.shape, r.data.take 4)) =
      some ([2, 3, 4], [6, 8, 10, 12]) := by
  refine ⟨by decide, by decide, by decide⟩

/-! ### Wildcard shape resolution -/

/-- C3: `resolve_shape` replaces a wildcard at a positive axis position
by `numel / Π(others)` and aborts on a second wildcard, but the
replacement is guarded by `dim > 0` instead of `dim ≥ 0`, so a wildcard
at axis 0 is returned as the resolved dimension while the shape is left
unchanged (`-1` stays in place). -/
theorem C3_resolve_shape_wildcard :
    resolve_shape 6 [-1, 3] = some ([-1, 3], 0) ∧
    resolve_shape 6 [3, -1] = some ([3, 2], 1) ∧
    resolve_shape 6 [2, -1] = some ([2, 3], 1) ∧
    resolve_shape 24 [2, -1, 3] = some ([2, 4, 3], 1) ∧
    resolve_shape 6 [-1, -1] = none := by
  refine ⟨by decide, by decide, by decide, by decide, by decide⟩

/-! ### Dimension resolution bounds -/

/-- C6: `resolve_dim` rejects `dim ≥ rank` (the `assert(d < ndim)`
aborts, and `sum` with such a `dim` fails before building any tensor),
but for `dim < -rank` the resolved value `dim + rank` is negative and
the assert `d < ndim` still passes, so `resolve_dim(2, -5)` returns
`-3` without any failure — the lower bound of the claimed `[0, rank)`
check does not exist in the code. -/
theorem C6_resolve_dim_behavior :
    resolve_dim 2 2 = none ∧
    resolve_dim 2 3 = none ∧
    ((tensor_alloc [2, 2] [1, 2, 3, 4]).bind (fun t => sum t 2 false)) = none ∧
    resolve_dim 2 (-1) = some 1 ∧
    resolve_dim 2 (-5) = some (-3) ∧
    ¬ ((0 : ℤ) ≤ -3) := by
  refine ⟨by decide, by decide, by decide, by decide, by decide, by decide⟩

/-! ### Reshape never reinterprets strides -/

/-- C1 counterexample: for the transpose of a freshly allocated `[2,3]`
tensor (shape `[3,2]`, strides `[1,3]`) reshaped to `[3,2]`, the spec's
view-compatible stride resolution succeeds with strides `[1,3]`, yet
`reshape` performs a data copy (flag `true`) and installs default
C-order strides `[2,1]` — the code has no view path for non-contiguous
tensors. -/
theorem C1_reshape_copies_despite_view :
    specViewStrides [3, 2] [1, 3] [3, 2] = some [1, 3] ∧
    ((tensor_alloc [2, 3] [1, 2, 3, 4, 5, 6]).bind (fun t => transpose t 0 1)).bind
        (fun t => reshape t [3, 2]) =
      some (Tensor.mk 2 [3, 2] [2, 1] 6 [1, 4, 2, 5, 3, 6], true) ∧
    ([2, 1] : List ℕ) ≠ [1, 3] := by
  refine ⟨by decide, by decide, by decide⟩

/-- C1 amended: `reshape` attempts no view-compatible stride
resolution: whenever it succeeds it reports a copy exactly when the
input was non-contiguous (the materialized odometer gather), and it
always installs default C-order strides for the resolved target
shape. -/
theorem C1_reshape_always_default_strides (t : Tensor) (ns : List ℤ) (t2 : Tensor) (c : Bool)
    (h : reshape t ns = some (t2, c)) :
    c = !is_contiguous t ∧
    t2.stride = cstrides t2.shape ∧
    t2.numel = t.numel ∧
    t2.ndim = ns.length ∧
    t2.data = (if is_contiguous t then t.data else contiguousData t) ∧
    (∃ shape2 dim, resolve_shape t.numel ns = some (shape2, dim) ∧
      t2.shape = shape2.map Int.toNat) := by
  unfold reshape at h
  cases hrs : resolve_shape t.numel ns with
  | none =>
    rw [hrs] at h
    cases h
  | some pr =>
    obtain ⟨shape2, dim⟩ := pr
    rw [hrs] at h
    by_cases hn : t.numel = reshapeNumel shape2
    · simp only [if_pos hn] at h
      obtain ⟨hrec, hcopy⟩ := Prod.mk.injEq _ _ _ _ |>.mp (Option.some.inj h)
      have hdata : (contiguous t).data = if is_contiguous t then t.data else contiguousData t := by
        unfold contiguous
        by_cases hc : is_contiguous t
        · rw [if_pos hc, if_pos hc]
        · rw [if_neg hc, if_neg hc]
      refine ⟨hcopy.symm, ?_, ?_, ?_, ?_, shape2, dim, rfl, ?_⟩
      · rw [← hrec]
      · rw [← hrec]
      · rw [← hrec]
      · rw [← hrec]
        exact hdata
      · rw [← hrec]
    · simp only [if_neg hn] at h
      cases h

/-- Witness for the amended C1 at the transposed `[2,3]` tensor
reshaped to `[3,2]`. -/
theorem C1_reshape_always_default_strides_witness :
    reshape c4t [3, 2] = some (Tensor.mk 2 [3, 2] [2, 1] 6 [1, 4, 2, 5, 3, 6], true) ∧
    (true = !is_contiguous c4t ∧
      (Tensor.mk 2 [3, 2] [2, 1] 6 [1, 4, 2, 5, 3, 6]).stride =
        cstrides (Tensor.mk 2 [3, 2] [2, 1] 6 [1, 4, 2, 5, 3, 6]).shape ∧
      (Tensor.mk 2 [3, 2] [2, 1] 6 [1, 4, 2, 5, 3, 6]).numel = c4t.numel ∧
      (Tensor.mk 2 [3, 2] [2, 1] 6 [1, 4, 2, 5, 3, 6]).ndim = ([3, 2] : List ℤ).length ∧
      (Tensor.mk 2 [3, 2] [2, 1] 6 [1, 4, 2, 5, 3, 6]).data =
        (if is_contiguous c4t then c4t.data else contiguousData c4t) ∧
      (∃ shape2 dim, resolve_shape c4t.numel [3, 2] = some (shape2, dim) ∧
        (Tensor.mk 2 [3, 2] [2, 1] 6 [1, 4, 2, 5, 3, 6]).shape = shape2.map Int.toNat)) :=
  ⟨by decide, C1_reshape_always_default_strides c4t [3, 2] _ true (by decide)⟩

/-! ### Allocation element count and (un)initialization -/

/-- C2 counterexample: `tensor_alloc` does not zero its buffer — it
returns whatever the allocator's memory held; with junk `[5, 7]` the
first element of a fresh `[2]` tensor reads 5, not 0. -/
theorem C2_alloc_not_zero_initialized :
    tensor_alloc [2] [5, 7] = some (Tensor.mk 1 [2] [1] 2 [5, 7]) ∧
    ((tensor_alloc [2] [5, 7]).map (fun t => t.data.getD 0 0)) = some 5 ∧
    (5 : ℤ) ≠ 0 := by
  refine ⟨by decide, by decide, by decide⟩

/-- C2 amended: for every shape of positive extents, `alloc` succeeds
with `element_count = Π shape`, default C-order strides, and a buffer of
exactly `element_count` cells whose contents are the uninitialized
allocator memory (not necessarily zero). -/
theorem C2_alloc_element_count (shape : List ℤ) (mem : List ℤ)
    (hne : shape ≠ []) (hpos : ∀ s ∈ shape, 0 < s)
    (hlen : mem.length = (shape.map Int.toNat).prod) :
    ∃ t, tensor_alloc shape mem = some t ∧
      t.numel = (shape.map Int.toNat).prod ∧
      t.data = mem ∧
      t.data.length = t.numel ∧
      t.shape = shape.map Int.toNat ∧
      t.stride = cstrides (shape.map Int.toNat) := by
  have hlen0 : ¬ shape.length = 0 := by
    intro h0
    exact hne (List.eq_nil_of_length_eq_zero h0)
  have hall : shape.all (fun s => decide (0 < s)) = true := by
    rw [List.all_eq_true]
    intro s hs
    exact decide_eq_true (hpos s hs)
  have hmne : shape.map Int.toNat ≠ [] := by
    intro hmn
    rw [List.map_eq_nil_iff] at hmn
    exact hne hmn
  have hmpos : ∀ s ∈ shape.map Int.toNat, 0 < s := by
    intro s hs
    obtain ⟨x, hx, rfl⟩ := List.mem_map.mp hs
    have := hpos x hx
    omega
  have hpn : prodNumel (shape.map Int.toNat) = (shape.map Int.toNat).prod :=
    prodNumel_eq_prod _ hmne hmpos
  have hmlen : mem.length = prodNumel (shape.map Int.toNat) := by rw [hpn, hlen]
  unfold tensor_alloc
  rw [if_neg hlen0, if_pos hall]
  have hdta : mem.take (prodNumel (shape.map Int.toNat)) ++
      List.replicate (prodNumel (shape.map Int.toNat) -
        (mem.take (prodNumel (shape.map Int.toNat))).length) 0 = mem := by
    rw [← hmlen, List.take_length, Nat.sub_self, List.replicate_zero, List.append_nil]
  refine ⟨_, rfl, ?_, ?_, ?_, rfl, rfl⟩
  · rw [mkT_numel, hpn]
  · rw [mkT_data]
    exact hdta
  · rw [mkT_data, mkT_numel, hdta, hmlen]

/-- Witness for the amended C2 at shape `[2,3]` with junk memory. -/
theorem C2_alloc_element_count_witness :
    (([2, 3] : List ℤ) ≠ []) ∧ (∀ s ∈ ([2, 3] : List ℤ), 0 < s) ∧
    ([9, 8, 7, 6, 5, 4] : List ℤ).length = (([2, 3] : List ℤ).map Int.toNat).prod ∧
    (∃ t, tensor_alloc [2, 3] [9, 8, 7, 6, 5, 4] = some t ∧
      t.numel = (([2, 3] : List ℤ).map Int.toNat).prod ∧
      t.data = [9, 8, 7, 6, 5, 4] ∧
      t.data.length = t.numel ∧
      t.shape = ([2, 3] : List ℤ).map Int.toNat ∧
      t.stride = cstrides (([2, 3] : List ℤ).map Int.toNat)) :=
  ⟨by decide, by decide, by decide,
    C2_alloc_element_count [2, 3] [9, 8, 7, 6, 5, 4] (by decide) (by decide) (by decide)⟩

/-! ### Broadcasting -/

lemma bcLoop_isSome (a b : List ℕ) (ndim : ℕ) : ∀ n i,
    (bcLoop a b ndim i n).isSome = true ↔
      ∀ k, i ≤ k → k < i + n →
        (padAx a ndim k = padAx b ndim k ∨ padAx a ndim k = 1 ∨ padAx b ndim k = 1) := by
  intro n
  induction n with
  | zero =>
    intro i
    constructor
    · intro _ k hk1 hk2
      omega
    · intro _
      rfl
  | succ n ih =>
    intro i
    show (if padAx a ndim i ≠ padAx b ndim i ∧ padAx a ndim i ≠ 1 ∧ padAx b ndim i ≠ 1
        then none
        else match bcLoop a b ndim (i + 1) n with
          | none => none
          | some (pa, pb) => some (padAx a ndim i :: pa, padAx b ndim i :: pb)).isSome =
        true ↔ _
    by_cases hmis : padAx a ndim i ≠ padAx b ndim i ∧ padAx a ndim i ≠ 1 ∧ padAx b ndim i ≠ 1
    · rw [if_pos hmis]
      constructor
      · intro hf
        cases hf
      · intro hall
        exact absurd (hall i (Nat.le_refl i) (by omega)) (by tauto)
    · rw [if_neg hmis]
      cases hrec : bcLoop a b ndim (i + 1) n with
      | none =>
        constructor
        · intro hf
          cases hf
        · intro hall
          have hs : (bcLoop a b ndim (i + 1) n).isSome = true := by
            rw [ih (i + 1)]
            intro k hk1 hk2
            exact hall k (by omega) (by omega)
          rw [hrec] at hs
          cases hs
      | some pr =>
        obtain ⟨pa, pb⟩ := pr
        constructor
        · intro _ k hk1 hk2
          by_cases hk : k = i
          · subst hk
            tauto
          · have hs : (bcLoop a b ndim (i + 1) n).isSome = true := by
              rw [hrec]
              rfl
            rw [ih (i + 1)] at hs
            exact hs k (by omega) (by omega)
        · intro _
          rfl

lemma broadcast_isSome (a b : List ℕ) :
    (broadcast a b).isSome =
      (bcLoop a b (Max.max a.length b.length) 0 (Max.max a.length b.length)).isSome := by
  simp only [broadcast]
  cases h : bcLoop a b (Max.max a.length b.length) 0 (Max.max a.length b.length) with
  | none => rfl
  | some pr =>
    obtain ⟨pa, pb⟩ := pr
    rfl

/-- C7: `broadcast([2,3],[3])` succeeds with common rank 2 and
right-padded shapes `([2,3],[1,3])`, whose elementwise max is `[2,3]`;
`broadcast([2,3],[4])` fails; and in general `broadcast` succeeds if
and only if every right-aligned axis pair (after left-padding the
shorter shape with 1s to rank `max(rankA, rankB)`) has equal sizes or
contains a 1. -/
theorem C7_broadcast_rules :
    broadcast [2, 3] [3] = some (2, [2, 3], [1, 3]) ∧
    List.zipWith (fun x y => Max.max x y) [2, 3] [1, 3] = [2, 3] ∧
    broadcast [2, 3] [4] = none ∧
    ∀ a b : List ℕ, (broadcast a b).isSome = true ↔
      ∀ k < Max.max a.length b.length,
        (padAx a (Max.max a.length b.length) k = padAx b (Max.max a.length b.length) k ∨
          padAx a (Max.max a.length b.length) k = 1 ∨
          padAx b (Max.max a.length b.length) k = 1) := by
  refine ⟨by decide, by decide, by decide, ?_⟩
  intro a b
  rw [broadcast_isSome, bcLoop_isSome]
  constructor
  · intro h k hk
    exact h k (by omega) (by omega)
  · intro h k hk1 hk2
    exact h k (by omega)

/-- Witness for C7: the general success criterion instantiated at the
failing pair of shapes `[2,3]` and `[4]`. -/
theorem C7_broadcast_rules_witness :
    (broadcast [2, 3] [4]).isSome = true ↔
      ∀ k < Max.max (List.length ([2, 3] : List ℕ)) (List.length ([4] : List ℕ)),
        (padAx [2, 3] (Max.max (List.length ([2, 3] : List ℕ)) (List.length ([4] : List ℕ))) k =
            padAx [4] (Max.max (List.length ([2, 3] : List ℕ)) (List.length ([4] : List ℕ))) k ∨
          padAx [2, 3] (Max.max (List.length ([2, 3] : List ℕ)) (List.length ([4] : List ℕ))) k = 1 ∨
          padAx [4] (Max.max (List.length ([2, 3] : List ℕ)) (List.length ([4] : List ℕ))) k = 1) :=
  C7_broadcast_rules.2.2.2 [2, 3] [4]

/-! ### Broadcast-driven element-wise engine -/

/-- C8: whenever `ewop` succeeds, the result has shape
`cshape[i] = max(ashape[i], bshape[i])` over the right-padded shapes,
and every linear output index holds
`op(a.data[idx mod a.numel], b.data[idx mod b.numel])`; in particular
`add` of a `[2,3]` tensor `1..6` and a `[3]` tensor `[10,20,30]` yields
shape `[2,3]` with data `[11,22,33,14,25,36]`. -/
theorem C8_modulus_ewise :
    (∀ (a b c : Tensor) (op : TOp), ewop a b op = some c →
      (∃ n pa pb, broadcast a.shape b.shape = some (n, pa, pb) ∧ 0 < n ∧
        c.shape = List.zipWith (fun x y => Max.max x y) pa pb) ∧
      (∀ idx, idx < c.numel →
        c.data.getD idx 0 =
          apOp op (a.data.getD (idx % a.numel) 0) (b.data.getD (idx % b.numel) 0))) ∧
    ((tensor_alloc [2, 3] [1, 2, 3, 4, 5, 6]).bind (fun a =>
      (tensor_alloc [3] [10, 20, 30]).bind (fun b => add a b))).map
        (fun c => (c.shape, c.data)) = some ([2, 3], [11, 22, 33, 14, 25, 36]) := by
  constructor
  · intro a b c op hc
    unfold ewop at hc
    cases hb : broadcast a.shape b.shape with
    | none =>
      rw [hb] at hc
      cases hc
    | some pr =>
      obtain ⟨n, pa, pb⟩ := pr
      rw [hb] at hc
      by_cases hn : n > 0
      · simp only [if_pos hn] at hc
        have hcc := Option.some.inj hc
        constructor
        · exact ⟨n, pa, pb, rfl, hn, by rw [← hcc, mkT_shape]⟩
        · intro idx hidx
          rw [← hcc, mkT_numel] at hidx
          rw [← hcc, mkT_data, getD_map_range _ _ _ _ hidx]
      · simp only [if_neg hn] at hc
        cases hc
  · decide

/-- Concrete operands for the C8 witness: the `[2,3]` tensor `1..6` and
the `[3]` tensor `[10,20,30]`, and the result of adding them. -/
def c8a : Tensor := ⟨2, [2, 3], [3, 1], 6, [1, 2, 3, 4, 5, 6]⟩

/-- Second operand of the C8 witness. -/
def c8b : Tensor := ⟨1, [3], [1], 3, [10, 20, 30]⟩

/-- Result tensor of the C8 witness. -/
def c8c : Tensor := ⟨2, [2, 3], [3, 1], 6, [11, 22, 33, 14, 25, 36]⟩

/-- Witness for C8 at the concrete `add` scenario. -/
theorem C8_modulus_ewise_witness :
    ewop c8a c8b TOp.add = some c8c ∧
    ((∃ n pa pb, broadcast c8a.shape c8b.shape = some (n, pa, pb) ∧ 0 < n ∧
        c8c.shape = List.zipWith (fun x y => Max.max x y) pa pb) ∧
      (∀ idx, idx < c8c.numel →
        c8c.data.getD idx 0 =
          apOp TOp.add (c8a.data.getD (idx % c8a.numel) 0) (c8b.data.getD (idx % c8b.numel) 0))) :=
  ⟨by decide, C8_modulus_ewise.1 c8a c8b c8c TOp.add (by decide)⟩

end TensorC
